import Mathlib

/-!
Verification development for the font merge engine (scripts/merge.py).

The definitions below are a shallow embedding of the Python source:
TrueType tables become association lists, fonts become a record of
tables, and every operation of the merge pipeline becomes a pure
function that threads the mutated container explicitly.  Fallible
operations return Except or a Bool success flag; the recursion of the
composite glyph copier is made total with an explicit fuel argument
modelling the Python recursion limit (exhaustion = RecursionError,
which the transplant loop catches like any other failure).
-/

/-! ## Association list primitives

Python dicts (glyf, hmtx, vmtx, cmap subtable mappings) are modelled as
association lists with dict-assignment semantics: assignment replaces
the value of an existing key in place, otherwise appends. -/

/-- Lookup of a key in an association list (Python dict read). -/
def alookup {α : Type} (k : Nat) (l : List (Nat × α)) : Option α :=
  match l with
  | [] => none
  | (k', v) :: rest => if k' = k then some v else alookup k rest

/-- Lookup with String keys (glyph-name keyed tables). -/
def slookup {α : Type} (k : String) (l : List (String × α)) : Option α :=
  match l with
  | [] => none
  | (k', v) :: rest => if k' = k then some v else slookup k rest

/-- Dict assignment for Nat keys: replace if present, else append. -/
def aset {α : Type} (k : Nat) (v : α) (l : List (Nat × α)) : List (Nat × α) :=
  match l with
  | [] => [(k, v)]
  | (k', v') :: rest => if k' = k then (k, v) :: rest else (k', v') :: aset k v rest

/-- Dict assignment for String keys: replace if present, else append. -/
def sset {α : Type} (k : String) (v : α) (l : List (String × α)) : List (String × α) :=
  match l with
  | [] => [(k, v)]
  | (k', v') :: rest => if k' = k then (k, v) :: rest else (k', v') :: sset k v rest

/-- Keys of a String-keyed table. -/
def skeys {α : Type} (l : List (String × α)) : List String := l.map Prod.fst

theorem slookup_sset_self {α : Type} (k : String) (v : α) (l : List (String × α)) :
    slookup k (sset k v l) = some v := by
  induction l with
  | nil => simp [sset, slookup]
  | cons hd tl ih =>
    obtain ⟨k', v'⟩ := hd
    by_cases h : k' = k
    · simp [sset, h, slookup]
    · simp [sset, h, slookup, ih]

theorem slookup_sset_ne {α : Type} {k k' : String} (h : k' ≠ k) (v : α)
    (l : List (String × α)) : slookup k (sset k' v l) = slookup k l := by
  induction l with
  | nil => simp [sset, slookup, h]
  | cons hd tl ih =>
    obtain ⟨k'', v''⟩ := hd
    by_cases h2 : k'' = k'
    · subst h2
      simp [sset, slookup, h]
    · by_cases h3 : k'' = k
      · subst h3
        simp [sset, h2, slookup]
      · simp [sset, h2, slookup, h3, ih]

theorem alookup_aset_self {α : Type} (k : Nat) (v : α) (l : List (Nat × α)) :
    alookup k (aset k v l) = some v := by
  induction l with
  | nil => simp [aset, alookup]
  | cons hd tl ih =>
    obtain ⟨k', v'⟩ := hd
    by_cases h : k' = k
    · simp [aset, h, alookup]
    · simp [aset, h, alookup, ih]

theorem alookup_aset_ne {α : Type} {k k' : Nat} (h : k' ≠ k) (v : α)
    (l : List (Nat × α)) : alookup k (aset k' v l) = alookup k l := by
  induction l with
  | nil => simp [aset, alookup, h]
  | cons hd tl ih =>
    obtain ⟨k'', v''⟩ := hd
    by_cases h2 : k'' = k'
    · subst h2
      simp [aset, alookup, h]
    · by_cases h3 : k'' = k
      · subst h3
        simp [aset, h2, alookup]
      · simp [aset, h2, alookup, h3, ih]

theorem mem_skeys_sset {α : Type} (k n : String) (v : α) (l : List (String × α)) :
    n ∈ skeys (sset k v l) ↔ n = k ∨ n ∈ skeys l := by
  induction l with
  | nil => simp [sset, skeys]
  | cons hd tl ih =>
    obtain ⟨k', v'⟩ := hd
    by_cases h : k' = k
    · subst h
      simp [sset, skeys]
    · simp only [sset, if_neg h, skeys, List.map_cons, List.mem_cons] at ih ⊢
      tauto

theorem slookup_isSome_iff_mem_skeys {α : Type} (k : String) (l : List (String × α)) :
    (slookup k l).isSome = true ↔ k ∈ skeys l := by
  induction l with
  | nil => simp [slookup, skeys]
  | cons hd tl ih =>
    obtain ⟨k', v'⟩ := hd
    by_cases h : k' = k
    · simp [slookup, h, skeys]
    · simp [slookup, h, skeys, ih]
      tauto

theorem skeys_sset_nodup {α : Type} (k : String) (v : α) (l : List (String × α))
    (h : (skeys l).Nodup) : (skeys (sset k v l)).Nodup := by
  induction l with
  | nil => simp [sset, skeys]
  | cons hd tl ih =>
    obtain ⟨k', v'⟩ := hd
    rw [show skeys ((k', v') :: tl) = k' :: skeys tl from rfl, List.nodup_cons] at h
    by_cases h2 : k' = k
    · subst h2
      rw [show sset k' v ((k', v') :: tl) = (k', v) :: tl from by simp [sset]]
      rw [show skeys ((k', v) :: tl) = k' :: skeys tl from rfl, List.nodup_cons]
      exact h
    · rw [show sset k v ((k', v') :: tl) = (k', v') :: sset k v tl from by simp [sset, h2]]
      rw [show skeys ((k', v') :: sset k v tl) = k' :: skeys (sset k v tl) from rfl,
        List.nodup_cons]
      refine ⟨fun hk => ?_, ih h.2⟩
      rw [mem_skeys_sset] at hk
      rcases hk with hk | hk
      · exact h2 hk
      · exact h.1 hk

theorem count_skeys_sset {α : Type} (k n : String) (v : α) (l : List (String × α))
    (h : (skeys l).Nodup) : n ∈ skeys (sset k v l) →
    (skeys (sset k v l)).count n = 1 := by
  intro hm
  exact List.count_eq_one_of_mem (skeys_sset_nodup k v l h) hm

/-! ## Data model: tables and the font container -/

/-- One glyph record of the outline (glyf) table: component references
(names of other glyphs, empty for simple glyphs), the contour count and
the optional maximum y extent of its bounding box. -/
structure Glyph where
  components : List String
  numberOfContours : Int
  yMax : Option Int
  deriving DecidableEq

/-- One cmap subtable: platform/encoding ids, subtable format and the
codepoint-to-glyph-name mapping. -/
structure CmapSubtable where
  platformID : Nat
  platEncID : Nat
  format : Nat
  language : Nat
  cmap : List (Nat × String)
  deriving DecidableEq

/-- OS/2 table fields touched by the merge. -/
structure OS2Table where
  sTypoAscender : Int
  sTypoDescender : Int
  sTypoLineGap : Int
  usWinAscent : Int
  usWinDescent : Int
  sxHeight : Int
  sCapHeight : Int
  fsSelection : Nat
  fsType : Nat
  ulUnicodeRange1 : Nat
  ulUnicodeRange2 : Nat
  ulUnicodeRange3 : Nat
  ulUnicodeRange4 : Nat
  deriving DecidableEq

/-- hhea table fields touched by the merge. -/
structure HheaTable where
  ascent : Int
  descent : Int
  lineGap : Int
  deriving DecidableEq

/-- vhea table fields touched by the merge. -/
structure VheaTable where
  ascent : Int
  advanceHeightMax : Int
  numberOfVMetrics : Nat
  deriving DecidableEq

/-- The in-memory font container: cmap subtable list, outline table,
horizontal and vertical metrics (advance, side bearing), glyph order
and the header/metrics records. -/
structure FontContainer where
  cmapTables : List CmapSubtable
  glyf : List (String × Glyph)
  hmtx : List (String × (Int × Int))
  vmtx : List (String × (Int × Int))
  glyphOrder : List String
  os2 : OS2Table
  hhea : HheaTable
  vhea : VheaTable
  deriving DecidableEq

/-! ## Cmap Resolver (get_best_cmap) -/

/-- First element of a list satisfying a predicate, mirroring the
Python idiom of a for loop with an early return. -/
def firstMatch (p : CmapSubtable → Bool) : List CmapSubtable → Option CmapSubtable
  | [] => none
  | st :: rest => if p st then some st else firstMatch p rest

/-- get_best_cmap: prefer Windows full Unicode (3,10), then Windows
BMP (3,1), then any Unicode-platform (0,_) subtable; error if none. -/
def get_best_cmap (font : FontContainer) : Except String (List (Nat × String)) :=
  match firstMatch (fun st => st.platformID == 3 && st.platEncID == 10) font.cmapTables with
  | some st => Except.ok st.cmap
  | none =>
    match firstMatch (fun st => st.platformID == 3 && st.platEncID == 1) font.cmapTables with
    | some st => Except.ok st.cmap
    | none =>
      match firstMatch (fun st => st.platformID == 0) font.cmapTables with
      | some st => Except.ok st.cmap
      | none => Except.error "Font has no usable Unicode cmap subtable"

/-! ## Cmap Coverage Synthesizer (ensure_cmap_subtables) -/

/-- ensure_cmap_subtables: append a synthesized format 4 subtable
(BMP-restricted best map) when none exists, and a format 12 subtable
(full best map) when none exists. -/
def ensure_cmap_subtables (font : FontContainer) : Except String FontContainer :=
  let has4 := font.cmapTables.any (fun t => t.format == 4)
  let has12 := font.cmapTables.any (fun t => t.format == 12)
  match get_best_cmap font with
  | Except.error e => Except.error e
  | Except.ok best =>
    let f1 := if has4 then font else
      { font with cmapTables := font.cmapTables ++
          [⟨3, 1, 4, 0, best.filter (fun kv => kv.1 ≤ 0xFFFF)⟩] }
    let f2 := if has12 then f1 else
      { f1 with cmapTables := f1.cmapTables ++ [⟨3, 10, 12, 0, best⟩] }
    Except.ok f2

/-! ## Cmap update (update_cmap) -/

/-- Per-subtable action of update_cmap: BMP codepoints go into format
4/6 subtables and platform-0 format 3/4 subtables; all codepoints go
into format 12/13 subtables; non Unicode platforms are skipped. -/
def updateSubtable (cp : Nat) (glyphName : String) (st : CmapSubtable) : CmapSubtable :=
  if st.platformID ≠ 0 ∧ st.platformID ≠ 3 then st
  else if cp ≤ 0xFFFF ∧ (st.format = 4 ∨ st.format = 6) then
    { st with cmap := aset cp glyphName st.cmap }
  else if st.format = 12 ∨ st.format = 13 then
    { st with cmap := aset cp glyphName st.cmap }
  else if st.platformID = 0 ∧ (st.format = 3 ∨ st.format = 4) ∧ cp ≤ 0xFFFF then
    { st with cmap := aset cp glyphName st.cmap }
  else st

/-- update_cmap: apply the per-subtable update to every cmap subtable. -/
def update_cmap (font : FontContainer) (cp : Nat) (glyphName : String) : FontContainer :=
  { font with cmapTables := font.cmapTables.map (updateSubtable cp glyphName) }

/-! ## Deterministic glyph naming (glyph_name_for_codepoint) -/

/-- Uppercase hexadecimal digit characters. -/
def hexChar : Nat → Char
  | 0 => '0' | 1 => '1' | 2 => '2' | 3 => '3' | 4 => '4'
  | 5 => '5' | 6 => '6' | 7 => '7' | 8 => '8' | 9 => '9'
  | 10 => 'A' | 11 => 'B' | 12 => 'C' | 13 => 'D' | 14 => 'E'
  | 15 => 'F' | _ => '?'

/-- Base-16 digit extraction, little endian, with explicit fuel (the
fuel only bounds the digit count, so n itself always suffices). -/
def hexDigitsAux : Nat → Nat → List Nat
  | 0, _ => []
  | fuel + 1, n => if n = 0 then [] else n % 16 :: hexDigitsAux fuel (n / 16)

/-- Little-endian base-16 digits of n (empty for 0). -/
def hexDigitsLE (n : Nat) : List Nat := hexDigitsAux n n

theorem hexDigitsAux_eq (fuel : Nat) :
    ∀ n, n ≤ fuel → hexDigitsAux fuel n = Nat.digits 16 n := by
  induction fuel with
  | zero =>
    intro n hn
    have h : n = 0 := by omega
    subst h
    simp [hexDigitsAux]
  | succ fuel ih =>
    intro n hn
    by_cases h0 : n = 0
    · subst h0
      simp [hexDigitsAux]
    · have hd : n / 16 ≤ fuel := by
        have := Nat.div_lt_self (Nat.pos_of_ne_zero h0) (by norm_num : 1 < 16)
        omega
      rw [hexDigitsAux, if_neg h0,
        Nat.digits_def' (by norm_num : (1:Nat) < 16) (Nat.pos_of_ne_zero h0), ih (n / 16) hd]

theorem hexDigitsLE_eq (n : Nat) : hexDigitsLE n = Nat.digits 16 n :=
  hexDigitsAux_eq n n (le_refl n)

/-- Hex digit values of n, most significant first, zero-padded on the
left to width w: the digit list of Python format(n, "0wX"). -/
def pyHex (w n : Nat) : List Nat :=
  let ds := (hexDigitsLE n).reverse
  List.replicate (w - ds.length) 0 ++ ds

/-- The string Python produces for f-string field cp:0wX. -/
def pyHexStr (w n : Nat) : String := String.mk ((pyHex w n).map hexChar)

/-- glyph_name_for_codepoint: BMP codepoints get prefix+uni+4 hex
digits, supplementary ones get prefix+u+6 hex digits. -/
def glyph_name_for_codepoint (cp : Nat) (pfx : String) : String :=
  if cp ≤ 0xFFFF then pfx ++ "uni" ++ pyHexStr 4 cp
  else pfx ++ "u" ++ pyHexStr 6 cp

/-! ## Glyph Transplanter (copy_glyph, transplant_glyphs) -/

/-- The slice of a container that copy_glyph reads and writes: the
outline table and the horizontal metrics table. -/
structure OutlineState where
  glyf : List (String × Glyph)
  hmtx : List (String × (Int × Int))
  deriving DecidableEq

/-- Copy each component of a composite in order with the given copy
procedure, stopping at the first failure (the Python exception aborts
the loop).  Each component is copied under the fixed internal prefix. -/
def runComponents (copy : OutlineState → String → String → OutlineState × Bool) :
    OutlineState → List String → OutlineState × Bool
  | dst, [] => (dst, true)
  | dst, c :: rest =>
    match copy dst c ("_ens_" ++ c) with
    | (dst1, false) => (dst1, false)
    | (dst1, true) => runComponents copy dst1 rest

/-- copy_glyph: deep-copy a glyph from the source outline state into
the destination.  A destination name already present is a no-op
(composite deduplication).  Composite glyphs first copy each component
recursively under the fixed internal prefix, then the rewritten
composite itself is inserted, followed by its horizontal metrics; a
missing source glyph or metrics entry, or fuel exhaustion (the Python
recursion limit), fails, leaving the mutations made so far in place. -/
def copy_glyph (src : OutlineState) : Nat → OutlineState → String → String →
    OutlineState × Bool
  | 0, dst, _, _ => (dst, false)
  | fuel + 1, dst, srcName, dstName =>
    if (slookup dstName dst.glyf).isSome then (dst, true)
    else
      match slookup srcName src.glyf with
      | none => (dst, false)
      | some g =>
        match runComponents (copy_glyph src fuel) dst g.components with
        | (dst1, false) => (dst1, false)
        | (dst1, true) =>
          let newGlyph := { g with components := g.components.map (fun c => "_ens_" ++ c) }
          let dst2 := { dst1 with glyf := sset dstName newGlyph dst1.glyf }
          match slookup srcName src.hmtx with
          | none => (dst2, false)
          | some m => ({ dst2 with hmtx := sset dstName m dst2.hmtx }, true)

/-- The outline-table slice of a container. -/
def FontContainer.outline (f : FontContainer) : OutlineState := ⟨f.glyf, f.hmtx⟩

/-- Write an outline state back into a container. -/
def FontContainer.withOutline (f : FontContainer) (o : OutlineState) : FontContainer :=
  { f with glyf := o.glyf, hmtx := o.hmtx }

/-- The transplant loop body over the resolved donor cmap entries: copy
the glyph under its deterministic name; on success update the cmap and
count it, on failure keep the partial mutations and continue. -/
def transplantLoop (src : OutlineState) (fuel : Nat) (pfx : String) :
    FontContainer → List (Nat × String) → FontContainer × Nat
  | dst, [] => (dst, 0)
  | dst, (cp, srcName) :: rest =>
    let dstName := glyph_name_for_codepoint cp pfx
    match copy_glyph src fuel dst.outline srcName dstName with
    | (o1, true) =>
      let dst2 := update_cmap (dst.withOutline o1) cp dstName
      let (d, c) := transplantLoop src fuel pfx dst2 rest
      (d, c + 1)
    | (o1, false) => transplantLoop src fuel pfx (dst.withOutline o1) rest

/-- transplant_glyphs: resolve the donor cmap and run the loop,
returning the updated base and the success count. -/
def transplant_glyphs (src dst : FontContainer) (pfx : String) (fuel : Nat) :
    Except String (FontContainer × Nat) :=
  match get_best_cmap src with
  | Except.error e => Except.error e
  | Except.ok srcCmap => Except.ok (transplantLoop src.outline fuel pfx dst srcCmap)

/-- Success flags of the transplant loop, entry by entry, used to state
failure containment and the meaning of the returned count. -/
def transplantTrace (src : OutlineState) (fuel : Nat) (pfx : String) :
    FontContainer → List (Nat × String) → List Bool
  | _, [] => []
  | dst, (cp, srcName) :: rest =>
    let dstName := glyph_name_for_codepoint cp pfx
    match copy_glyph src fuel dst.outline srcName dstName with
    | (o1, true) =>
      true :: transplantTrace src fuel pfx (update_cmap (dst.withOutline o1) cp dstName) rest
    | (o1, false) => false :: transplantTrace src fuel pfx (dst.withOutline o1) rest

/-! ## Glyph Order Reconciler (fix_glyph_order) -/

/-- fix_glyph_order: append the outline-table names missing from the
existing glyph order (a Python set difference) after it. -/
def fix_glyph_order (f : FontContainer) : FontContainer :=
  let existing := f.glyphOrder
  let glyfNames := (f.glyf.map Prod.fst).dedup
  let newGlyphs := glyfNames.filter (fun g => !existing.contains g)
  { f with glyphOrder := existing ++ newGlyphs }

/-! ## Metrics Synchronizer (set_os2_metrics) -/

/-- set_os2_metrics: copy typographic, legacy Windows and header
metrics plus x-height/cap-height from the donor reference, set the
USE_TYPO_METRICS flag, force installable embedding, and OR together
the Unicode range bitmasks of both fonts. -/
def set_os2_metrics (font mesloRef : FontContainer) : FontContainer :=
  { font with
    os2 := { font.os2 with
      sTypoAscender := mesloRef.os2.sTypoAscender
      sTypoDescender := mesloRef.os2.sTypoDescender
      sTypoLineGap := mesloRef.os2.sTypoLineGap
      usWinAscent := mesloRef.os2.usWinAscent
      usWinDescent := mesloRef.os2.usWinDescent
      fsSelection := font.os2.fsSelection ||| 0x80
      fsType := 0
      sxHeight := mesloRef.os2.sxHeight
      sCapHeight := mesloRef.os2.sCapHeight
      ulUnicodeRange1 := mesloRef.os2.ulUnicodeRange1 ||| font.os2.ulUnicodeRange1
      ulUnicodeRange2 := mesloRef.os2.ulUnicodeRange2 ||| font.os2.ulUnicodeRange2
      ulUnicodeRange3 := mesloRef.os2.ulUnicodeRange3 ||| font.os2.ulUnicodeRange3
      ulUnicodeRange4 := mesloRef.os2.ulUnicodeRange4 ||| font.os2.ulUnicodeRange4 }
    hhea := { font.hhea with
      ascent := mesloRef.hhea.ascent
      descent := mesloRef.hhea.descent
      lineGap := mesloRef.hhea.lineGap } }

/-! ## Vertical Metrics Rebuilder (rebuild_vmtx) -/

/-- Loop of rebuild_vmtx over the glyph order: names with an entry are
kept; a missing entry is synthesized with the uniform advance height
and tsb = vertical ascent minus yMax when the glyph has outlines
(nonzero contour count and a resolvable bounding box), else 0. -/
def rebuildLoop (glyf : List (String × Glyph)) (vertAscent advHeight : Int) :
    List (String × (Int × Int)) → List String → List (String × (Int × Int))
  | vm, [] => vm
  | vm, name :: rest =>
    if (slookup name vm).isSome then rebuildLoop glyf vertAscent advHeight vm rest
    else
      let tsb : Int :=
        match slookup name glyf with
        | none => 0
        | some g =>
          if g.numberOfContours ≠ 0 then
            match g.yMax with
            | some y => vertAscent - y
            | none => 0
          else 0
      rebuildLoop glyf vertAscent advHeight (sset name (advHeight, tsb) vm) rest

/-- rebuild_vmtx: fill in a vertical metrics entry for every glyph in
the glyph order and set the explicit entry count to the glyph count. -/
def rebuild_vmtx (f : FontContainer) : FontContainer :=
  { f with
    vmtx := rebuildLoop f.glyf f.vhea.ascent f.vhea.advanceHeightMax f.vmtx f.glyphOrder
    vhea := { f.vhea with numberOfVMetrics := f.glyphOrder.length } }

/-! ## Sample containers used by concrete check theorems -/

/-- Neutral OS/2 record for sample fonts. -/
def sampleOS2 : OS2Table := ⟨0, 0, 0, 0, 0, 0, 0, 0, 0, 0, 0, 0, 0⟩

/-- Neutral hhea record for sample fonts. -/
def sampleHhea : HheaTable := ⟨0, 0, 0⟩

/-- Neutral vhea record for sample fonts. -/
def sampleVhea : VheaTable := ⟨0, 0, 0⟩

/-- Sample base font: one wide cmap subtable mapping U+0041 to a
base-authored glyph and U+4E2D to a CJK glyph. -/
def sampleBase : FontContainer :=
  { cmapTables := [⟨3, 10, 12, 0, [(0x41, "A_base"), (0x4E2D, "zhong")]⟩],
    glyf := [("A_base", ⟨[], 2, some 700⟩), ("zhong", ⟨[], 3, some 800⟩)],
    hmtx := [("A_base", (600, 10)), ("zhong", (1000, 0))],
    vmtx := [],
    glyphOrder := ["A_base", "zhong"],
    os2 := sampleOS2, hhea := sampleHhea, vhea := sampleVhea }

/-- Sample donor font whose cmap also covers U+0041. -/
def sampleDonor : FontContainer :=
  { cmapTables := [⟨3, 10, 12, 0, [(0x41, "A")]⟩],
    glyf := [("A", ⟨[], 2, some 720⟩)],
    hmtx := [("A", (600, 10))],
    vmtx := [],
    glyphOrder := ["A"],
    os2 := sampleOS2, hhea := sampleHhea, vhea := sampleVhea }

/-- The glyph name a font's best cmap assigns to a codepoint. -/
def bestMappingAt (f : FontContainer) (cp : Nat) : Option String :=
  match get_best_cmap f with
  | Except.ok m => alookup cp m
  | Except.error _ => none

/-- C1: before the merge the sample base's best cmap maps U+0041 to
the base glyph A_base; transplant_glyphs then remaps U+0041 to the
donor-sourced glyph mes_uni0041, overwriting the pre-existing base
mapping.  This contradicts the base-priority contract stated both in
the spec and in the merge_fonts caller comments (donor glyphs fill
gaps only and never overwrite), so the loop's unconditional
update_cmap call is a code bug. -/
theorem c1_transplant_overwrites_base_mapping :
    bestMappingAt sampleBase 0x41 = some "A_base" ∧
    (match transplant_glyphs sampleDonor sampleBase "mes_" 5 with
     | Except.ok p => bestMappingAt p.1 0x41
     | Except.error _ => none) = some "mes_uni0041" := by
  constructor
  · rfl
  · rfl

/-- A donor reference whose own header ascent, legacy Windows ascent
and typographic ascender disagree (1, 2, 3). -/
def inconsistentRef : FontContainer :=
  { sampleBase with
    os2 := { sampleOS2 with usWinAscent := 2, sTypoAscender := 3 },
    hhea := { sampleHhea with ascent := 1 } }

/-- A donor reference satisfying the metric consistency invariant. -/
def consistentRef : FontContainer :=
  { sampleBase with
    os2 := { sampleOS2 with usWinAscent := 800, usWinDescent := 200, sTypoAscender := 800, sTypoDescender := -200 },
    hhea := { sampleHhea with ascent := 800, descent := -200 } }

/-- C2 counterexample: merging against a donor whose own metric fields
disagree yields a base violating the claimed consistency invariant, so
the invariant does not hold after set_os2_metrics for every base and
donor pair. -/
theorem c2_counterexample_inconsistent_donor :
    ¬ ((set_os2_metrics sampleBase inconsistentRef).hhea.ascent =
       (set_os2_metrics sampleBase inconsistentRef).os2.usWinAscent) := by
  decide

/-- C2 (amended): set_os2_metrics copies every one of the six metric
fields from the donor reference, so whenever the donor itself satisfies
the consistency invariant (header ascent = legacy Windows ascent =
typographic ascender, header descent = negated legacy Windows descent =
typographic descender), the merged base satisfies it afterwards. -/
theorem c2_set_os2_metrics_consistency (base mesloRef : FontContainer)
    (h1 : mesloRef.hhea.ascent = mesloRef.os2.usWinAscent)
    (h2 : mesloRef.hhea.ascent = mesloRef.os2.sTypoAscender)
    (h3 : mesloRef.hhea.descent = -mesloRef.os2.usWinDescent)
    (h4 : mesloRef.hhea.descent = mesloRef.os2.sTypoDescender) :
    (set_os2_metrics base mesloRef).hhea.ascent =
      (set_os2_metrics base mesloRef).os2.usWinAscent ∧
    (set_os2_metrics base mesloRef).hhea.ascent =
      (set_os2_metrics base mesloRef).os2.sTypoAscender ∧
    (set_os2_metrics base mesloRef).hhea.descent =
      -(set_os2_metrics base mesloRef).os2.usWinDescent ∧
    (set_os2_metrics base mesloRef).hhea.descent =
      (set_os2_metrics base mesloRef).os2.sTypoDescender := by
  exact ⟨h1, h2, h3, h4⟩

/-- C2 witness: the amended consistency theorem applied to the sample
base and a concrete internally consistent donor reference. -/
theorem c2_witness :
    (set_os2_metrics sampleBase consistentRef).hhea.ascent =
    (set_os2_metrics sampleBase consistentRef).os2.sTypoAscender := by
  exact (c2_set_os2_metrics_consistency sampleBase consistentRef
    (by decide) (by decide) (by decide) (by decide)).2.1

/-! ## C6: Cmap Resolver characterization -/

/-- A wide Windows-Unicode subtable: platform 3, encoding 10. -/
def isWideWindows (st : CmapSubtable) : Prop := st.platformID = 3 ∧ st.platEncID = 10

/-- A narrow Windows-Unicode subtable: platform 3, encoding 1. -/
def isNarrowWindows (st : CmapSubtable) : Prop := st.platformID = 3 ∧ st.platEncID = 1

/-- A subtable under the generic Unicode platform: platform 0. -/
def isUnicodePlatform (st : CmapSubtable) : Prop := st.platformID = 0

theorem firstMatch_eq_some_iff {p : CmapSubtable → Bool} {l : List CmapSubtable}
    {st : CmapSubtable} : firstMatch p l = some st ↔
    ∃ l1 l2, l = l1 ++ st :: l2 ∧ p st = true ∧ ∀ x ∈ l1, p x = false := by
  induction l with
  | nil =>
    simp only [firstMatch]
    constructor
    · intro h
      exact absurd h (by simp)
    · rintro ⟨l1, l2, h, -, -⟩
      exact absurd h.symm (List.append_ne_nil_of_right_ne_nil l1 (by simp))
  | cons a l ih =>
    by_cases h : p a
    · simp only [firstMatch, if_pos h]
      constructor
      · intro he
        injection he with he
        subst he
        exact ⟨[], l, rfl, h, by simp⟩
      · rintro ⟨l1, l2, hl, hst, hfail⟩
        match l1, hl with
        | [], hl =>
          injection hl with h1 h2
          rw [h1]
        | b :: l1, hl =>
          injection hl with h1 h2
          subst h1
          exact absurd h (by simp [hfail a (by simp)])
    · simp only [firstMatch, if_neg h, ih]
      constructor
      · rintro ⟨l1, l2, hl, hst, hfail⟩
        refine ⟨a :: l1, l2, by rw [hl]; rfl, hst, ?_⟩
        intro x hx
        rcases List.mem_cons.mp hx with hx | hx
        · subst hx
          exact Bool.eq_false_iff.mpr h
        · exact hfail x hx
      · rintro ⟨l1, l2, hl, hst, hfail⟩
        match l1, hl with
        | [], hl =>
          injection hl with h1 h2
          subst h1
          exact absurd hst h
        | b :: l1, hl =>
          injection hl with h1 h2
          subst h1
          exact ⟨l1, l2, h2, hst, fun x hx => hfail x (List.mem_cons_of_mem _ hx)⟩

theorem firstMatch_eq_none_iff {p : CmapSubtable → Bool} {l : List CmapSubtable} :
    firstMatch p l = none ↔ ∀ x ∈ l, p x = false := by
  induction l with
  | nil =>
    simp only [firstMatch]
    exact ⟨fun _ x hx => absurd hx (List.not_mem_nil x), fun _ => trivial⟩
  | cons a l ih =>
    by_cases h : p a
    · simp only [firstMatch, if_pos h]
      constructor
      · intro he
        exact absurd he (by simp)
      · intro hall
        have h2 := hall a (by simp)
        rw [h] at h2
        exact absurd h2 (by simp)
    · simp only [firstMatch, if_neg h, ih]
      constructor
      · intro hall x hx
        rcases List.mem_cons.mp hx with hx | hx
        · subst hx
          exact Bool.eq_false_iff.mpr h
        · exact hall x hx
      · intro hall x hx
        exact hall x (List.mem_cons_of_mem _ hx)

/-- C6: get_best_cmap returns the mapping of the first subtable that
is wide Windows-Unicode (3,10); otherwise of the first narrow
Windows-Unicode (3,1); otherwise of the first generic Unicode-platform
(0,_) subtable; and it returns the error exactly when no subtable
matches any of the three rules. -/
theorem c6_get_best_cmap_priority (f : FontContainer) :
    (∀ m, get_best_cmap f = Except.ok m ↔
      ((∃ l1 l2 st, f.cmapTables = l1 ++ st :: l2 ∧ isWideWindows st ∧
        (∀ x ∈ l1, ¬ isWideWindows x) ∧ m = st.cmap) ∨
      ((∀ x ∈ f.cmapTables, ¬ isWideWindows x) ∧
       ∃ l1 l2 st, f.cmapTables = l1 ++ st :: l2 ∧ isNarrowWindows st ∧
        (∀ x ∈ l1, ¬ isNarrowWindows x) ∧ m = st.cmap) ∨
      ((∀ x ∈ f.cmapTables, ¬ isWideWindows x ∧ ¬ isNarrowWindows x) ∧
       ∃ l1 l2 st, f.cmapTables = l1 ++ st :: l2 ∧ isUnicodePlatform st ∧
        (∀ x ∈ l1, ¬ isUnicodePlatform x) ∧ m = st.cmap))) ∧
    (get_best_cmap f = Except.error "Font has no usable Unicode cmap subtable" ↔
      ∀ x ∈ f.cmapTables, ¬ isWideWindows x ∧ ¬ isNarrowWindows x ∧ ¬ isUnicodePlatform x) := by
  have bw : ∀ st : CmapSubtable,
      ((st.platformID == 3 && st.platEncID == 10) = true) ↔ isWideWindows st := by
    intro st
    simp [isWideWindows]
  have bn : ∀ st : CmapSubtable,
      ((st.platformID == 3 && st.platEncID == 1) = true) ↔ isNarrowWindows st := by
    intro st
    simp [isNarrowWindows]
  have bu : ∀ st : CmapSubtable, ((st.platformID == 0) = true) ↔ isUnicodePlatform st := by
    intro st
    simp [isUnicodePlatform]
  have bwf : ∀ st : CmapSubtable,
      ((st.platformID == 3 && st.platEncID == 10) = false) ↔ ¬ isWideWindows st :=
    fun st => Bool.eq_false_iff.trans (not_congr (bw st))
  have bnf : ∀ st : CmapSubtable,
      ((st.platformID == 3 && st.platEncID == 1) = false) ↔ ¬ isNarrowWindows st :=
    fun st => Bool.eq_false_iff.trans (not_congr (bn st))
  have buf : ∀ st : CmapSubtable, ((st.platformID == 0) = false) ↔ ¬ isUnicodePlatform st :=
    fun st => Bool.eq_false_iff.trans (not_congr (bu st))
  rcases h1 : firstMatch (fun st => st.platformID == 3 && st.platEncID == 10) f.cmapTables
    with _ | st1
  · rcases h2 : firstMatch (fun st => st.platformID == 3 && st.platEncID == 1) f.cmapTables
      with _ | st2
    · rcases h3 : firstMatch (fun st => st.platformID == 0) f.cmapTables with _ | st3
      · -- nothing matches: the error case
        have hg : get_best_cmap f = Except.error "Font has no usable Unicode cmap subtable" := by
          simp only [get_best_cmap, h1, h2, h3]
        have hw := firstMatch_eq_none_iff.mp h1
        have hn := firstMatch_eq_none_iff.mp h2
        have hu := firstMatch_eq_none_iff.mp h3
        constructor
        · intro m
          rw [hg]
          constructor
          · intro he
            exact absurd he (by simp)
          · rintro (⟨l1, l2, st, hs, hp, -, -⟩ | ⟨-, l1, l2, st, hs, hp, -, -⟩ |
              ⟨-, l1, l2, st, hs, hp, -, -⟩)
            · exact absurd hp ((bwf st).mp (hw st (by rw [hs]; simp)))
            · exact absurd hp ((bnf st).mp (hn st (by rw [hs]; simp)))
            · exact absurd hp ((buf st).mp (hu st (by rw [hs]; simp)))
        · rw [hg]
          constructor
          · intro _ x hx
            exact ⟨(bwf x).mp (hw x hx), (bnf x).mp (hn x hx), (buf x).mp (hu x hx)⟩
          · intro _
            rfl
      · -- Unicode-platform fallback
        have hg : get_best_cmap f = Except.ok st3.cmap := by
          simp only [get_best_cmap, h1, h2, h3]
        have hw := firstMatch_eq_none_iff.mp h1
        have hn := firstMatch_eq_none_iff.mp h2
        obtain ⟨a1, a2, hsplit, hp3, hfail3⟩ := firstMatch_eq_some_iff.mp h3
        constructor
        · intro m
          rw [hg]
          constructor
          · intro he
            injection he with he
            refine Or.inr (Or.inr ⟨fun x hx => ⟨(bwf x).mp (hw x hx), (bnf x).mp (hn x hx)⟩,
              a1, a2, st3, hsplit, (bu st3).mp hp3,
              fun x hx => (buf x).mp (hfail3 x hx), he.symm⟩)
          · rintro (⟨l1, l2, st, hs, hps, -, -⟩ | ⟨-, l1, l2, st, hs, hps, -, -⟩ |
              ⟨-, l1, l2, st, hs, hps, hfs, hm⟩)
            · exact absurd hps ((bwf st).mp (hw st (by rw [hs]; simp)))
            · exact absurd hps ((bnf st).mp (hn st (by rw [hs]; simp)))
            · have : firstMatch (fun st => st.platformID == 0) f.cmapTables = some st :=
                firstMatch_eq_some_iff.mpr ⟨l1, l2, hs, (bu st).mpr hps,
                  fun x hx => (buf x).mpr (hfs x hx)⟩
              rw [h3] at this
              injection this with this
              rw [hm, this]
        · rw [hg]
          constructor
          · intro he
            exact absurd he (by simp)
          · intro hall
            exact absurd ((bu st3).mp hp3) (hall st3 (by rw [hsplit]; simp)).2.2
    · -- narrow Windows fallback
      have hg : get_best_cmap f = Except.ok st2.cmap := by
        simp only [get_best_cmap, h1, h2]
      have hw := firstMatch_eq_none_iff.mp h1
      obtain ⟨a1, a2, hsplit, hp2, hfail2⟩ := firstMatch_eq_some_iff.mp h2
      constructor
      · intro m
        rw [hg]
        constructor
        · intro he
          injection he with he
          refine Or.inr (Or.inl ⟨fun x hx => (bwf x).mp (hw x hx),
            a1, a2, st2, hsplit, (bn st2).mp hp2,
            fun x hx => (bnf x).mp (hfail2 x hx), he.symm⟩)
        · rintro (⟨l1, l2, st, hs, hps, -, -⟩ | ⟨-, l1, l2, st, hs, hps, hfs, hm⟩ |
            ⟨hall, l1, l2, st, hs, hps, -, -⟩)
          · exact absurd hps ((bwf st).mp (hw st (by rw [hs]; simp)))
          · have : firstMatch (fun st => st.platformID == 3 && st.platEncID == 1) f.cmapTables
                = some st :=
              firstMatch_eq_some_iff.mpr ⟨l1, l2, hs, (bn st).mpr hps,
                fun x hx => (bnf x).mpr (hfs x hx)⟩
            rw [h2] at this
            injection this with this
            rw [hm, this]
          · exact absurd ((bn st2).mp hp2) (hall st2 (by rw [hsplit]; simp)).2
      · rw [hg]
        constructor
        · intro he
          exact absurd he (by simp)
        · intro hall
          exact absurd ((bn st2).mp hp2) (hall st2 (by rw [hsplit]; simp)).2.1
  · -- wide Windows preferred
    have hg : get_best_cmap f = Except.ok st1.cmap := by
      simp only [get_best_cmap, h1]
    obtain ⟨a1, a2, hsplit, hp1, hfail1⟩ := firstMatch_eq_some_iff.mp h1
    constructor
    · intro m
      rw [hg]
      constructor
      · intro he
        injection he with he
        exact Or.inl ⟨a1, a2, st1, hsplit, (bw st1).mp hp1,
          fun x hx => (bwf x).mp (hfail1 x hx), he.symm⟩
      · rintro (⟨l1, l2, st, hs, hps, hfs, hm⟩ | ⟨hall, -⟩ | ⟨hall, -⟩)
        · have : firstMatch (fun st => st.platformID == 3 && st.platEncID == 10) f.cmapTables
              = some st :=
            firstMatch_eq_some_iff.mpr ⟨l1, l2, hs, (bw st).mpr hps,
              fun x hx => (bwf x).mpr (hfs x hx)⟩
          rw [h1] at this
          injection this with this
          rw [hm, this]
        · exact absurd ((bw st1).mp hp1) (hall st1 (by rw [hsplit]; simp))
        · exact absurd ((bw st1).mp hp1) (hall st1 (by rw [hsplit]; simp)).1
    · rw [hg]
      constructor
      · intro he
        exact absurd he (by simp)
      · intro hall
        exact absurd ((bw st1).mp hp1) (hall st1 (by rw [hsplit]; simp)).1

/-! ## C3: range safety of narrow cmap subtables -/

theorem mem_aset {α : Type} {kv : Nat × α} {k : Nat} {v : α} {l : List (Nat × α)} :
    kv ∈ aset k v l → kv = (k, v) ∨ kv ∈ l := by
  induction l with
  | nil =>
    intro h
    simp [aset] at h
    simp [h]
  | cons hd tl ih =>
    obtain ⟨k', v'⟩ := hd
    by_cases h : k' = k
    · subst h
      intro hm
      simp [aset] at hm
      rcases hm with hm | hm
      · exact Or.inl hm
      · exact Or.inr (List.mem_cons_of_mem _ hm)
    · intro hm
      simp only [aset, if_neg h, List.mem_cons] at hm
      rcases hm with hm | hm
      · exact Or.inr (by simp [hm])
      · rcases ih hm with hm | hm
        · exact Or.inl hm
        · exact Or.inr (List.mem_cons_of_mem _ hm)

/-- Every narrow (BMP-only, format 4 or 6) cmap subtable of the font
holds only codepoints at most 0xFFFF. -/
def narrowBMPonly (f : FontContainer) : Prop :=
  ∀ st ∈ f.cmapTables, (st.format = 4 ∨ st.format = 6) → ∀ kv ∈ st.cmap, kv.1 ≤ 0xFFFF

instance (f : FontContainer) : Decidable (narrowBMPonly f) := by
  unfold narrowBMPonly
  infer_instance

theorem updateSubtable_cases (cp : Nat) (g : String) (st : CmapSubtable) :
    updateSubtable cp g st = st ∨
    (updateSubtable cp g st = { st with cmap := aset cp g st.cmap } ∧
      (cp ≤ 0xFFFF ∨ st.format = 12 ∨ st.format = 13)) := by
  unfold updateSubtable
  split_ifs with h1 h2 h3 h4
  · exact Or.inl rfl
  · exact Or.inr ⟨rfl, Or.inl h2.1⟩
  · exact Or.inr ⟨rfl, Or.inr h3⟩
  · exact Or.inr ⟨rfl, Or.inl h4.2.2⟩
  · exact Or.inl rfl

theorem updateSubtable_narrow_frame {cp : Nat} (g : String) {st : CmapSubtable}
    (hcp : 0xFFFF < cp) (hfmt : st.format = 4 ∨ st.format = 6) :
    updateSubtable cp g st = st := by
  rcases updateSubtable_cases cp g st with h | ⟨-, h⟩
  · exact h
  · rcases h with h | h | h <;> omega

theorem update_cmap_narrowBMPonly (f : FontContainer) (cp : Nat) (g : String)
    (h : narrowBMPonly f) : narrowBMPonly (update_cmap f cp g) := by
  intro st' hst' hfmt kv hkv
  simp only [update_cmap, List.mem_map] at hst'
  obtain ⟨st, hst, hmap⟩ := hst'
  rcases updateSubtable_cases cp g st with hc | ⟨hc, hbmp⟩
  · rw [← hmap, hc] at hfmt hkv
    exact h st hst hfmt kv hkv
  · rw [← hmap, hc] at hfmt hkv
    simp only at hfmt hkv
    rcases mem_aset hkv with he | he
    · subst he
      rcases hbmp with hbmp | hbmp | hbmp
      · exact hbmp
      · omega
      · omega
    · exact h st hst hfmt kv he

theorem ensure_preserves_narrowBMPonly {f f' : FontContainer}
    (h : ensure_cmap_subtables f = Except.ok f') (hn : narrowBMPonly f) :
    narrowBMPonly f' := by
  unfold ensure_cmap_subtables at h
  rcases hb : get_best_cmap f with e | best
  · rw [hb] at h
    exact absurd h (by simp)
  · rw [hb] at h
    simp only at h
    injection h with h
    subst h
    intro st hst hfmt kv hkv
    by_cases h4 : f.cmapTables.any (fun t => t.format == 4) <;>
      by_cases h12 : f.cmapTables.any (fun t => t.format == 12) <;>
        simp only [h4, h12, if_pos, if_neg, Bool.not_eq_true, if_true, if_false,
          List.mem_append, List.mem_singleton] at hst
    · exact hn st hst hfmt kv hkv
    · rcases hst with hst | hst
      · exact hn st hst hfmt kv hkv
      · subst hst
        rcases hfmt with hfmt | hfmt <;> simp at hfmt
    · rcases hst with hst | hst
      · exact hn st hst hfmt kv hkv
      · subst hst
        simp only at hkv
        exact of_decide_eq_true (List.mem_filter.mp hkv).2
    · rcases hst with (hst | hst) | hst
      · exact hn st hst hfmt kv hkv
      · subst hst
        simp only at hkv
        exact of_decide_eq_true (List.mem_filter.mp hkv).2
      · subst hst
        rcases hfmt with hfmt | hfmt <;> simp at hfmt

theorem transplantLoop_narrowBMPonly (src : OutlineState) (fuel : Nat) (pfx : String) :
    ∀ (l : List (Nat × String)) (dst : FontContainer), narrowBMPonly dst →
      narrowBMPonly (transplantLoop src fuel pfx dst l).1 := by
  intro l
  induction l with
  | nil =>
    intro dst h
    exact h
  | cons e rest ih =>
    intro dst h
    obtain ⟨cp, srcName⟩ := e
    rcases hcg : copy_glyph src fuel dst.outline srcName (glyph_name_for_codepoint cp pfx)
      with ⟨o1, ok⟩
    have hout : narrowBMPonly (dst.withOutline o1) := h
    cases ok with
    | false =>
      simp only [transplantLoop, hcg]
      exact ih _ hout
    | true =>
      simp only [transplantLoop, hcg]
      exact ih _ (update_cmap_narrowBMPonly _ cp _ hout)

/-- C3: a supplementary codepoint is never written into a narrow
(format 4 or 6) subtable by update_cmap; the format 4 subtable
synthesized by ensure_cmap_subtables holds only BMP codepoints; and
both update_cmap, ensure_cmap_subtables and the whole transplant loop
preserve the invariant that no narrow subtable contains a codepoint
above 0xFFFF. -/
theorem c3_range_safety :
    (∀ (cp : Nat) (g : String) (st : CmapSubtable), 0xFFFF < cp →
      (st.format = 4 ∨ st.format = 6) → updateSubtable cp g st = st) ∧
    (∀ (f : FontContainer) (cp : Nat) (g : String), narrowBMPonly f →
      narrowBMPonly (update_cmap f cp g)) ∧
    (∀ f f' : FontContainer, ensure_cmap_subtables f = Except.ok f' →
      ∀ st ∈ f'.cmapTables, st ∉ f.cmapTables → st.format = 4 →
        ∀ kv ∈ st.cmap, kv.1 ≤ 0xFFFF) ∧
    (∀ f f' : FontContainer, ensure_cmap_subtables f = Except.ok f' →
      narrowBMPonly f → narrowBMPonly f') ∧
    (∀ (src dst : FontContainer) (pfx : String) (fuel : Nat) (f' : FontContainer) (n : Nat),
      transplant_glyphs src dst pfx fuel = Except.ok (f', n) →
      narrowBMPonly dst → narrowBMPonly f') := by
  refine ⟨fun cp g st hcp hfmt => updateSubtable_narrow_frame g hcp hfmt,
    fun f cp g h => update_cmap_narrowBMPonly f cp g h, ?_,
    fun f f' h hn => ensure_preserves_narrowBMPonly h hn, ?_⟩
  · intro f f' h st hst hnew hfmt kv hkv
    unfold ensure_cmap_subtables at h
    rcases hb : get_best_cmap f with e | best
    · rw [hb] at h
      exact absurd h (by simp)
    · rw [hb] at h
      simp only at h
      injection h with h
      subst h
      by_cases h4 : f.cmapTables.any (fun t => t.format == 4) <;>
        by_cases h12 : f.cmapTables.any (fun t => t.format == 12) <;>
          simp only [h4, h12, if_pos, if_neg, Bool.not_eq_true, if_true, if_false,
            List.mem_append, List.mem_singleton] at hst
      · exact absurd hst hnew
      · rcases hst with hst | hst
        · exact absurd hst hnew
        · subst hst
          simp at hfmt
      · rcases hst with hst | hst
        · exact absurd hst hnew
        · subst hst
          simp only at hkv
          exact of_decide_eq_true (List.mem_filter.mp hkv).2
      · rcases hst with (hst | hst) | hst
        · exact absurd hst hnew
        · subst hst
          simp only at hkv
          exact of_decide_eq_true (List.mem_filter.mp hkv).2
        · subst hst
          simp at hfmt
  · intro src dst pfx fuel f' n h hn
    unfold transplant_glyphs at h
    rcases hb : get_best_cmap src with e | srcCmap
    · rw [hb] at h
      exact absurd h (by simp)
    · rw [hb] at h
      simp only at h
      injection h with h
      have := transplantLoop_narrowBMPonly src.outline fuel pfx srcCmap dst hn
      rw [h] at this
      exact this

/-- C3 witness: a supplementary codepoint leaves a concrete narrow
subtable untouched, and updating the sample base with it preserves the
range-safety invariant. -/
theorem c3_witness :
    updateSubtable 0x1F600 "icon" ⟨3, 1, 4, 0, [(65, "A")]⟩ = ⟨3, 1, 4, 0, [(65, "A")]⟩ ∧
    narrowBMPonly (update_cmap sampleBase 0x1F600 "icon") := by
  exact ⟨c3_range_safety.1 0x1F600 "icon" ⟨3, 1, 4, 0, [(65, "A")]⟩ (by decide)
      (by decide),
    c3_range_safety.2.1 sampleBase 0x1F600 "icon" (by decide)⟩

/-! ## C10: injectivity of the deterministic glyph naming scheme -/

/-- Value of a most-significant-first base-16 digit list. -/
def valHex (l : List Nat) : Nat := l.foldl (fun a d => 16 * a + d) 0

theorem valHex_append_singleton (l : List Nat) (d : Nat) :
    valHex (l ++ [d]) = 16 * valHex l + d := by
  simp [valHex, List.foldl_append]

theorem valHex_reverse_eq_ofDigits (l : List Nat) :
    valHex l.reverse = Nat.ofDigits 16 l := by
  induction l with
  | nil => simp [valHex, Nat.ofDigits]
  | cons d l ih =>
    rw [List.reverse_cons, valHex_append_singleton, ih, Nat.ofDigits_cons]
    ring

theorem foldl_replicate_zero (k : Nat) :
    List.foldl (fun a d => 16 * a + d) 0 (List.replicate k 0) = 0 := by
  induction k with
  | zero => rfl
  | succ k ih => simpa [List.replicate_succ] using ih

theorem valHex_pad (k : Nat) (l : List Nat) :
    valHex (List.replicate k 0 ++ l) = valHex l := by
  unfold valHex
  rw [List.foldl_append, foldl_replicate_zero]

theorem valHex_pyHex (w n : Nat) : valHex (pyHex w n) = n := by
  unfold pyHex
  rw [valHex_pad, hexDigitsLE_eq, valHex_reverse_eq_ofDigits]
  exact_mod_cast Nat.ofDigits_digits 16 n

theorem pyHex_injective {w a b : Nat} (h : pyHex w a = pyHex w b) : a = b := by
  have := congrArg valHex h
  rwa [valHex_pyHex, valHex_pyHex] at this

theorem pyHex_digits_lt {w n d : Nat} (h : d ∈ pyHex w n) : d < 16 := by
  unfold pyHex at h
  rcases List.mem_append.mp h with h | h
  · rw [List.eq_of_mem_replicate h]
    omega
  · rw [hexDigitsLE_eq] at h
    exact Nat.digits_lt_base (by norm_num) (List.mem_reverse.mp h)

theorem hexChar_inj_on : ∀ x, x < 16 → ∀ y, y < 16 → hexChar x = hexChar y → x = y := by
  decide

theorem hexChar_ne_n : ∀ d, d < 16 → hexChar d ≠ 'n' := by
  decide

theorem map_hexChar_inj : ∀ (l1 l2 : List Nat), (∀ x ∈ l1, x < 16) → (∀ x ∈ l2, x < 16) →
    l1.map hexChar = l2.map hexChar → l1 = l2 := by
  intro l1
  induction l1 with
  | nil =>
    intro l2 _ _ h
    cases l2 with
    | nil => rfl
    | cons b l2 => exact absurd h (by simp)
  | cons a l1 ih =>
    intro l2 hb1 hb2 h
    cases l2 with
    | nil => exact absurd h (by simp)
    | cons b l2 =>
      simp only [List.map_cons, List.cons.injEq] at h
      rw [hexChar_inj_on a (hb1 a (by simp)) b (hb2 b (by simp)) h.1,
        ih l2 (fun x hx => hb1 x (List.mem_cons_of_mem _ hx))
          (fun x hx => hb2 x (List.mem_cons_of_mem _ hx)) h.2]

theorem pyHexStr_data (w n : Nat) : (pyHexStr w n).data = (pyHex w n).map hexChar := rfl

theorem pyHexStr_inj {w a b : Nat} (h : pyHexStr w a = pyHexStr w b) : a = b := by
  have hd := congrArg String.data h
  rw [pyHexStr_data, pyHexStr_data] at hd
  exact pyHex_injective (map_hexChar_inj _ _ (fun x hx => pyHex_digits_lt hx)
    (fun x hx => pyHex_digits_lt hx) hd)

/-- C10: for a fixed donor prefix the deterministic glyph naming scheme
is injective on all codepoints of the Unicode range: distinct
codepoints always receive distinct names, the BMP branch names
(prefix+uni+4 hex digits) never colliding with the supplementary
branch names (prefix+u+6 hex digits). -/
theorem c10_glyph_name_for_codepoint_injective (pfx : String) (cp1 cp2 : Nat)
    (hb1 : cp1 ≤ 0x10FFFF) (hb2 : cp2 ≤ 0x10FFFF) (hne : cp1 ≠ cp2) :
    glyph_name_for_codepoint cp1 pfx ≠ glyph_name_for_codepoint cp2 pfx := by
  intro he
  unfold glyph_name_for_codepoint at he
  have mixed : ∀ a b : Nat, ¬ (pfx ++ "uni" ++ pyHexStr 4 a = pfx ++ "u" ++ pyHexStr 6 b) := by
    intro a b hab
    have hd := congrArg String.data hab
    rw [String.data_append, String.data_append, String.data_append, String.data_append,
      List.append_assoc, List.append_assoc] at hd
    have hd2 := List.append_cancel_left hd
    rw [show ("uni").data = ['u', 'n', 'i'] from rfl,
      show ("u").data = ['u'] from rfl] at hd2
    simp only [List.cons_append, List.nil_append, List.cons.injEq] at hd2
    have hn : 'n' ∈ (pyHexStr 6 b).data := by
      rw [← hd2.2]
      simp
    rw [pyHexStr_data] at hn
    obtain ⟨d, hdm, hdc⟩ := List.mem_map.mp hn
    exact hexChar_ne_n d (pyHex_digits_lt hdm) hdc
  by_cases h1 : cp1 ≤ 0xFFFF <;> by_cases h2 : cp2 ≤ 0xFFFF
  · rw [if_pos h1, if_pos h2] at he
    have ht : List.map hexChar (pyHex 4 cp1) = List.map hexChar (pyHex 4 cp2) :=
      List.append_cancel_left (congrArg String.data he)
    exact hne (pyHex_injective (map_hexChar_inj _ _ (fun x hx => pyHex_digits_lt hx)
      (fun x hx => pyHex_digits_lt hx) ht))
  · rw [if_pos h1, if_neg h2] at he
    exact mixed cp1 cp2 he
  · rw [if_neg h1, if_pos h2] at he
    exact mixed cp2 cp1 he.symm
  · rw [if_neg h1, if_neg h2] at he
    have hd := congrArg String.data he
    rw [String.data_append, String.data_append, String.data_append, String.data_append,
      List.append_assoc, List.append_assoc] at hd
    have hd2 := List.append_cancel_left hd
    have hd3 := List.append_cancel_left hd2
    rw [pyHexStr_data, pyHexStr_data] at hd3
    exact hne (pyHex_injective (map_hexChar_inj _ _ (fun x hx => pyHex_digits_lt hx)
      (fun x hx => pyHex_digits_lt hx) hd3))

/-- C10 witness: the injectivity theorem applied to the BMP codepoint
U+0041 and the supplementary codepoint U+1F600 under the donor prefix
used by the merge. -/
theorem c10_witness :
    glyph_name_for_codepoint 0x41 "mes_" ≠ glyph_name_for_codepoint 0x1F600 "mes_" :=
  c10_glyph_name_for_codepoint_injective "mes_" 0x41 0x1F600 (by decide) (by decide)
    (by decide)

/-! ## C8: glyph order reconciliation -/

theorem contains_iff_mem (l : List String) (a : String) : l.contains a = true ↔ a ∈ l := by
  simp [List.contains_eq_any_beq]

/-- C8: fix_glyph_order keeps the previous ordering as an unchanged
prefix, appends exactly the outline-table names that were absent from
it (each once, without duplicates), and afterwards every outline-table
name occurs in the ordering exactly once. -/
theorem c8_fix_glyph_order (f : FontContainer) (hN : f.glyphOrder.Nodup) :
    ((fix_glyph_order f).glyphOrder.take f.glyphOrder.length = f.glyphOrder) ∧
    (∀ n, n ∈ (fix_glyph_order f).glyphOrder ↔ n ∈ f.glyphOrder ∨ n ∈ skeys f.glyf) ∧
    (((fix_glyph_order f).glyphOrder.drop f.glyphOrder.length).Nodup ∧
      ∀ n, n ∈ (fix_glyph_order f).glyphOrder.drop f.glyphOrder.length ↔
        n ∈ skeys f.glyf ∧ n ∉ f.glyphOrder) ∧
    (∀ n ∈ skeys f.glyf, (fix_glyph_order f).glyphOrder.count n = 1) := by
  have horder : (fix_glyph_order f).glyphOrder =
      f.glyphOrder ++ (f.glyf.map Prod.fst).dedup.filter
        (fun g => !f.glyphOrder.contains g) := rfl
  have hmemnew : ∀ n, n ∈ (f.glyf.map Prod.fst).dedup.filter
      (fun g => !f.glyphOrder.contains g) ↔ n ∈ skeys f.glyf ∧ n ∉ f.glyphOrder := by
    intro n
    rw [List.mem_filter, List.mem_dedup]
    constructor
    · intro ⟨h1, h2⟩
      refine ⟨h1, fun hmem => ?_⟩
      rw [Bool.not_eq_true'] at h2
      rw [← contains_iff_mem] at hmem
      rw [hmem] at h2
      exact absurd h2 (by simp)
    · intro ⟨h1, h2⟩
      refine ⟨h1, ?_⟩
      have hc : f.glyphOrder.contains n = false := by
        rcases hb : f.glyphOrder.contains n with _ | _
        · rfl
        · exact absurd ((contains_iff_mem _ _).mp hb) h2
      simp [hc]
      exact h2
  refine ⟨?_, ?_, ⟨?_, ?_⟩, ?_⟩
  · rw [horder]
    exact List.take_left _ _
  · intro n
    rw [horder, List.mem_append, hmemnew]
    constructor
    · rintro (h | h)
      · exact Or.inl h
      · exact Or.inr h.1
    · rintro (h | h)
      · exact Or.inl h
      · by_cases hmem : n ∈ f.glyphOrder
        · exact Or.inl hmem
        · exact Or.inr ⟨h, hmem⟩
  · rw [horder, List.drop_left]
    exact ((f.glyf.map Prod.fst).nodup_dedup).filter _
  · intro n
    rw [horder, List.drop_left]
    exact hmemnew n
  · intro n hn
    rw [horder, List.count_append]
    by_cases hmem : n ∈ f.glyphOrder
    · rw [List.count_eq_one_of_mem hN hmem,
        List.count_eq_zero_of_not_mem (fun hc => ((hmemnew n).mp hc).2 hmem)]
    · rw [List.count_eq_zero_of_not_mem hmem,
        List.count_eq_one_of_mem (((f.glyf.map Prod.fst).nodup_dedup).filter _)
          ((hmemnew n).mpr ⟨hn, hmem⟩)]

/-- A container whose outline table holds a glyph name that is still
missing from its glyph order. -/
def sampleUnordered : FontContainer :=
  { sampleBase with
    glyphOrder := ["A_base"],
    glyf := [("A_base", ⟨[], 2, some 700⟩), ("extra", ⟨[], 1, some 100⟩)] }

/-- C8 witness: the reconciliation theorem applied to a concrete
container with one missing name. -/
theorem c8_witness :
    (fix_glyph_order sampleUnordered).glyphOrder.count "extra" = 1 :=
  (c8_fix_glyph_order sampleUnordered (by decide)).2.2.2 "extra" (by decide)

/-! ## C9: vertical metrics rebuild -/

theorem rebuildLoop_kept (glyf : List (String × Glyph)) (asc adv : Int) :
    ∀ (l : List String) (vm : List (String × (Int × Int))) (name : String),
      (slookup name vm).isSome →
      slookup name (rebuildLoop glyf asc adv vm l) = slookup name vm := by
  intro l
  induction l with
  | nil =>
    intro vm name _
    rfl
  | cons m rest ih =>
    intro vm name hs
    by_cases hm : (slookup m vm).isSome
    · simp only [rebuildLoop, if_pos hm]
      exact ih vm name hs
    · simp only [rebuildLoop, if_neg hm]
      have hne : m ≠ name := by
        intro he
        rw [he] at hm
        exact hm hs
      have hset : slookup name (sset m (adv,
          match slookup m glyf with
          | none => 0
          | some g =>
            if g.numberOfContours ≠ 0 then
              match g.yMax with
              | some y => asc - y
              | none => 0
            else 0) vm) = slookup name vm := slookup_sset_ne hne _ vm
      rw [ih _ name (by rw [hset]; exact hs), hset]

theorem rebuildLoop_synth (glyf : List (String × Glyph)) (asc adv : Int) :
    ∀ (l : List String) (vm : List (String × (Int × Int))) (name : String),
      name ∈ l → slookup name vm = none →
      slookup name (rebuildLoop glyf asc adv vm l) =
        some (adv,
          match slookup name glyf with
          | none => 0
          | some g =>
            if g.numberOfContours ≠ 0 then
              match g.yMax with
              | some y => asc - y
              | none => 0
            else 0) := by
  intro l
  induction l with
  | nil =>
    intro vm name hmem
    exact absurd hmem (List.not_mem_nil name)
  | cons m rest ih =>
    intro vm name hmem hnone
    by_cases heq : m = name
    · subst heq
      have hm : ¬ (slookup m vm).isSome := by
        rw [hnone]
        simp
      simp only [rebuildLoop, if_neg hm]
      rw [rebuildLoop_kept glyf asc adv rest _ m (by rw [slookup_sset_self]; rfl),
        slookup_sset_self]
    · have hmem2 : name ∈ rest := by
        rcases List.mem_cons.mp hmem with h | h
        · exact absurd h.symm heq
        · exact h
      by_cases hm : (slookup m vm).isSome
      · simp only [rebuildLoop, if_pos hm]
        exact ih vm name hmem2 hnone
      · simp only [rebuildLoop, if_neg hm]
        exact ih _ name hmem2 (by rw [slookup_sset_ne heq]; exact hnone)

theorem rebuildLoop_nodup (glyf : List (String × Glyph)) (asc adv : Int) :
    ∀ (l : List String) (vm : List (String × (Int × Int))),
      (skeys vm).Nodup → (skeys (rebuildLoop glyf asc adv vm l)).Nodup := by
  intro l
  induction l with
  | nil =>
    intro vm h
    exact h
  | cons m rest ih =>
    intro vm h
    by_cases hm : (slookup m vm).isSome
    · simp only [rebuildLoop, if_pos hm]
      exact ih vm h
    · simp only [rebuildLoop, if_neg hm]
      exact ih _ (skeys_sset_nodup _ _ _ h)

theorem rebuildLoop_covers (glyf : List (String × Glyph)) (asc adv : Int) :
    ∀ (l : List String) (vm : List (String × (Int × Int))) (name : String),
      name ∈ l → (slookup name (rebuildLoop glyf asc adv vm l)).isSome := by
  intro l vm name hmem
  by_cases hs : (slookup name vm).isSome
  · rw [rebuildLoop_kept glyf asc adv l vm name hs]
    exact hs
  · rw [rebuildLoop_synth glyf asc adv l vm name hmem (Option.not_isSome_iff_eq_none.mp hs)]
    rfl

/-- C9: after rebuild_vmtx every glyph name of the glyph order has
exactly one vertical metrics entry, pre-existing entries are unchanged,
every synthesized entry carries the uniform maximum vertical advance
and a top side bearing of (vertical ascent - yMax) for glyphs with
outlines and 0 otherwise, and the explicit entry count equals the total
glyph count. -/
theorem c9_rebuild_vmtx (f : FontContainer) (hN : (skeys f.vmtx).Nodup) :
    (∀ name ∈ f.glyphOrder, (skeys (rebuild_vmtx f).vmtx).count name = 1) ∧
    (∀ name, (slookup name f.vmtx).isSome →
      slookup name (rebuild_vmtx f).vmtx = slookup name f.vmtx) ∧
    (∀ name ∈ f.glyphOrder, slookup name f.vmtx = none →
      slookup name (rebuild_vmtx f).vmtx =
        some (f.vhea.advanceHeightMax,
          match slookup name f.glyf with
          | none => 0
          | some g =>
            if g.numberOfContours ≠ 0 then
              match g.yMax with
              | some y => f.vhea.ascent - y
              | none => 0
            else 0)) ∧
    ((rebuild_vmtx f).vhea.numberOfVMetrics = f.glyphOrder.length) := by
  refine ⟨?_, ?_, ?_, rfl⟩
  · intro name hmem
    have hsome := rebuildLoop_covers f.glyf f.vhea.ascent f.vhea.advanceHeightMax
      f.glyphOrder f.vmtx name hmem
    have hmemk := (slookup_isSome_iff_mem_skeys _ _).mp hsome
    exact List.count_eq_one_of_mem
      (rebuildLoop_nodup f.glyf f.vhea.ascent f.vhea.advanceHeightMax f.glyphOrder f.vmtx hN)
      hmemk
  · intro name hs
    exact rebuildLoop_kept f.glyf f.vhea.ascent f.vhea.advanceHeightMax f.glyphOrder
      f.vmtx name hs
  · intro name hmem hnone
    exact rebuildLoop_synth f.glyf f.vhea.ascent f.vhea.advanceHeightMax f.glyphOrder
      f.vmtx name hmem hnone

/-- A container with vertical tables: one existing vmtx entry, one
glyph (zhong, yMax 800) still lacking its entry, vertical ascent 900
and uniform maximum advance 1000. -/
def sampleVert : FontContainer :=
  { sampleBase with
    vhea := ⟨900, 1000, 0⟩,
    vmtx := [("A_base", (1000, 5))] }

/-- C9 witness: the rebuild theorem applied to the concrete vertical
container, giving the synthesized entry (1000, 900 - 800) for zhong
and the explicit entry count 2. -/
theorem c9_witness :
    slookup "zhong" (rebuild_vmtx sampleVert).vmtx = some (1000, 100) ∧
    (rebuild_vmtx sampleVert).vhea.numberOfVMetrics = 2 := by
  have h := c9_rebuild_vmtx sampleVert (by decide)
  refine ⟨?_, h.2.2.2⟩
  have h3 := h.2.2.1 "zhong" (by decide) (by rfl)
  rw [h3]
  rfl

/-! ## Lemmas on the recursive glyph copier -/

theorem runComponents_glyf_mono (copy : OutlineState → String → String → OutlineState × Bool)
    (hc : ∀ dst c d n, n ∈ skeys dst.glyf → n ∈ skeys (copy dst c d).1.glyf) :
    ∀ (l : List String) (dst : OutlineState) (n : String),
      n ∈ skeys dst.glyf → n ∈ skeys (runComponents copy dst l).1.glyf := by
  intro l
  induction l with
  | nil =>
    intro dst n hn
    exact hn
  | cons c rest ih =>
    intro dst n hn
    rcases hcr : copy dst c ("_ens_" ++ c) with ⟨dst1, ok⟩
    have hstep : n ∈ skeys dst1.glyf := by
      have := hc dst c ("_ens_" ++ c) n hn
      rw [hcr] at this
      exact this
    cases ok with
    | false => simpa only [runComponents, hcr] using hstep
    | true =>
      simp only [runComponents, hcr]
      exact ih dst1 n hstep

theorem copy_glyph_glyf_mono (src : OutlineState) :
    ∀ (fuel : Nat) (dst : OutlineState) (sN dN n : String),
      n ∈ skeys dst.glyf → n ∈ skeys (copy_glyph src fuel dst sN dN).1.glyf := by
  intro fuel
  induction fuel with
  | zero =>
    intro dst sN dN n hn
    exact hn
  | succ fuel ih =>
    intro dst sN dN n hn
    by_cases hd : (slookup dN dst.glyf).isSome
    · simp only [copy_glyph, hd, if_true]
      exact hn
    · rcases hsrc : slookup sN src.glyf with _ | g
      · simp only [copy_glyph, hd, if_false, Bool.false_eq_true, hsrc]
        exact hn
      · rcases hrc : runComponents (copy_glyph src fuel) dst g.components with ⟨dst1, ok⟩
        have hmono : n ∈ skeys dst1.glyf := by
          have := runComponents_glyf_mono (copy_glyph src fuel)
            (fun dst c d n hn => ih dst c d n hn) g.components dst n hn
          rw [hrc] at this
          exact this
        cases ok with
        | false =>
          simp only [copy_glyph, hd, if_false, Bool.false_eq_true, hsrc, hrc]
          exact hmono
        | true =>
          rcases hh : slookup sN src.hmtx with _ | met
          · simp only [copy_glyph, hd, if_false, Bool.false_eq_true, hsrc, hrc, hh]
            exact (mem_skeys_sset _ _ _ _).mpr (Or.inr hmono)
          · simp only [copy_glyph, hd, if_false, Bool.false_eq_true, hsrc, hrc, hh]
            exact (mem_skeys_sset _ _ _ _).mpr (Or.inr hmono)

theorem copy_glyph_success_mem (src : OutlineState) (fuel : Nat) (dst : OutlineState)
    (sN dN : String) (h : (copy_glyph src fuel dst sN dN).2 = true) :
    dN ∈ skeys (copy_glyph src fuel dst sN dN).1.glyf := by
  cases fuel with
  | zero => exact absurd h (by simp [copy_glyph])
  | succ fuel =>
    by_cases hd : (slookup dN dst.glyf).isSome
    · simp only [copy_glyph, hd, if_true]
      exact (slookup_isSome_iff_mem_skeys _ _).mp hd
    · rcases hsrc : slookup sN src.glyf with _ | g
      · rw [show (copy_glyph src (fuel + 1) dst sN dN) = (dst, false) from by
          simp only [copy_glyph, hd, if_false, Bool.false_eq_true, hsrc]] at h
        exact absurd h (by simp)
      · rcases hrc : runComponents (copy_glyph src fuel) dst g.components with ⟨dst1, ok⟩
        cases ok with
        | false =>
          rw [show (copy_glyph src (fuel + 1) dst sN dN) = (dst1, false) from by
            simp only [copy_glyph, hd, if_false, Bool.false_eq_true, hsrc, hrc]] at h
          exact absurd h (by simp)
        | true =>
          rcases hh : slookup sN src.hmtx with _ | met
          · rw [show (copy_glyph src (fuel + 1) dst sN dN).2 = false from by
              simp only [copy_glyph, hd, if_false, Bool.false_eq_true, hsrc, hrc, hh]] at h
            exact absurd h (by simp)
          · simp only [copy_glyph, hd, if_false, Bool.false_eq_true, hsrc, hrc, hh]
            exact (mem_skeys_sset _ _ _ _).mpr (Or.inl rfl)

theorem runComponents_success_mem (copy : OutlineState → String → String → OutlineState × Bool)
    (hB : ∀ dst c d, (copy dst c d).2 = true → d ∈ skeys (copy dst c d).1.glyf)
    (hM : ∀ dst c d n, n ∈ skeys dst.glyf → n ∈ skeys (copy dst c d).1.glyf) :
    ∀ (l : List String) (dst : OutlineState),
      (runComponents copy dst l).2 = true →
      ∀ c ∈ l, ("_ens_" ++ c) ∈ skeys (runComponents copy dst l).1.glyf := by
  intro l
  induction l with
  | nil =>
    intro dst _ c hc
    exact absurd hc (List.not_mem_nil c)
  | cons c0 rest ih =>
    intro dst hsucc c hc
    rcases hcr : copy dst c0 ("_ens_" ++ c0) with ⟨dst1, ok⟩
    cases ok with
    | false =>
      rw [show (runComponents copy dst (c0 :: rest)).2 = false from by
        simp only [runComponents, hcr]] at hsucc
      exact absurd hsucc (by simp)
    | true =>
      simp only [runComponents, hcr] at hsucc ⊢
      rcases List.mem_cons.mp hc with hc | hc
      · subst hc
        have hmem : ("_ens_" ++ c) ∈ skeys dst1.glyf := by
          have := hB dst c ("_ens_" ++ c)
          rw [hcr] at this
          exact this rfl
        exact runComponents_glyf_mono copy hM rest dst1 _ hmem
      · exact ih dst1 hsucc c hc

theorem runComponents_nodup (copy : OutlineState → String → String → OutlineState × Bool)
    (hD : ∀ dst c d, (skeys dst.glyf).Nodup → (skeys (copy dst c d).1.glyf).Nodup) :
    ∀ (l : List String) (dst : OutlineState),
      (skeys dst.glyf).Nodup → (skeys (runComponents copy dst l).1.glyf).Nodup := by
  intro l
  induction l with
  | nil =>
    intro dst h
    exact h
  | cons c rest ih =>
    intro dst h
    rcases hcr : copy dst c ("_ens_" ++ c) with ⟨dst1, ok⟩
    have hstep : (skeys dst1.glyf).Nodup := by
      have := hD dst c ("_ens_" ++ c) h
      rw [hcr] at this
      exact this
    cases ok with
    | false => simpa only [runComponents, hcr] using hstep
    | true =>
      simp only [runComponents, hcr]
      exact ih dst1 hstep

theorem copy_glyph_nodup (src : OutlineState) :
    ∀ (fuel : Nat) (dst : OutlineState) (sN dN : String),
      (skeys dst.glyf).Nodup → (skeys (copy_glyph src fuel dst sN dN).1.glyf).Nodup := by
  intro fuel
  induction fuel with
  | zero =>
    intro dst sN dN h
    exact h
  | succ fuel ih =>
    intro dst sN dN h
    by_cases hd : (slookup dN dst.glyf).isSome
    · simp only [copy_glyph, hd, if_true]
      exact h
    · rcases hsrc : slookup sN src.glyf with _ | g
      · simp only [copy_glyph, hd, if_false, Bool.false_eq_true, hsrc]
        exact h
      · rcases hrc : runComponents (copy_glyph src fuel) dst g.components with ⟨dst1, ok⟩
        have hstep : (skeys dst1.glyf).Nodup := by
          have := runComponents_nodup (copy_glyph src fuel)
            (fun dst c d hh => ih dst c d hh) g.components dst h
          rw [hrc] at this
          exact this
        cases ok with
        | false =>
          simp only [copy_glyph, hd, if_false, Bool.false_eq_true, hsrc, hrc]
          exact hstep
        | true =>
          rcases hh : slookup sN src.hmtx with _ | met
          · simp only [copy_glyph, hd, if_false, Bool.false_eq_true, hsrc, hrc, hh]
            exact skeys_sset_nodup _ _ _ hstep
          · simp only [copy_glyph, hd, if_false, Bool.false_eq_true, hsrc, hrc, hh]
            exact skeys_sset_nodup _ _ _ hstep

/-- C4: copy_glyph is a no-op (state and outcome) when the destination
name already exists; a composite whose two components share one name
yields exactly one destination entry for the shared component; and
after a successful copy, repeating the call leaves the destination
unchanged. -/
theorem c4_copy_glyph_dedup :
    (∀ (src : OutlineState) (fuel : Nat) (dst : OutlineState) (sN dN : String),
      0 < fuel → dN ∈ skeys dst.glyf → copy_glyph src fuel dst sN dN = (dst, true)) ∧
    (∀ (src : OutlineState) (fuel : Nat) (dst : OutlineState) (sN dN c : String) (g : Glyph),
      slookup sN src.glyf = some g → g.components = [c, c] →
      (skeys dst.glyf).Nodup → dN ∉ skeys dst.glyf →
      (copy_glyph src fuel dst sN dN).2 = true →
      (skeys (copy_glyph src fuel dst sN dN).1.glyf).count ("_ens_" ++ c) = 1) ∧
    (∀ (src : OutlineState) (fuel fuel' : Nat) (dst : OutlineState) (sN dN : String),
      0 < fuel' → (copy_glyph src fuel dst sN dN).2 = true →
      copy_glyph src fuel' (copy_glyph src fuel dst sN dN).1 sN dN =
        ((copy_glyph src fuel dst sN dN).1, true)) := by
  have noop : ∀ (src : OutlineState) (fuel : Nat) (dst : OutlineState) (sN dN : String),
      0 < fuel → dN ∈ skeys dst.glyf → copy_glyph src fuel dst sN dN = (dst, true) := by
    intro src fuel dst sN dN hf hmem
    cases fuel with
    | zero => omega
    | succ fuel =>
      have hd : (slookup dN dst.glyf).isSome = true :=
        (slookup_isSome_iff_mem_skeys _ _).mpr hmem
      simp only [copy_glyph, hd, if_true]
  refine ⟨noop, ?_, ?_⟩
  · intro src fuel dst sN dN c g hsrc hcomp hnd hnew hsucc
    have hmem : ("_ens_" ++ c) ∈ skeys (copy_glyph src fuel dst sN dN).1.glyf := by
      cases fuel with
      | zero => exact absurd hsucc (by simp [copy_glyph])
      | succ fuel =>
        have hd : (slookup dN dst.glyf).isSome = false :=
          Bool.eq_false_iff.mpr
            (fun hx => hnew ((slookup_isSome_iff_mem_skeys _ _).mp hx))
        rcases hrc : runComponents (copy_glyph src fuel) dst g.components with ⟨dst1, ok⟩
        cases ok with
        | false =>
          rw [show (copy_glyph src (fuel + 1) dst sN dN).2 = false from by
            simp only [copy_glyph, hd, if_false, Bool.false_eq_true, hsrc, hrc]] at hsucc
          exact absurd hsucc (by simp)
        | true =>
          have hcm : ("_ens_" ++ c) ∈ skeys dst1.glyf := by
            have hr2 : (runComponents (copy_glyph src fuel) dst g.components).2 = true := by
              rw [hrc]
            have := runComponents_success_mem (copy_glyph src fuel)
              (fun dst c d hh => copy_glyph_success_mem src fuel dst c d hh)
              (fun dst c d n hn => copy_glyph_glyf_mono src fuel dst c d n hn)
              g.components dst hr2 c (by rw [hcomp]; simp)
            rw [hrc] at this
            exact this
          rcases hh : slookup sN src.hmtx with _ | met
          · rw [show (copy_glyph src (fuel + 1) dst sN dN).2 = false from by
              simp only [copy_glyph, hd, if_false, Bool.false_eq_true, hsrc, hrc, hh]] at hsucc
            exact absurd hsucc (by simp)
          · simp only [copy_glyph, hd, if_false, Bool.false_eq_true, hsrc, hrc, hh]
            exact (mem_skeys_sset _ _ _ _).mpr (Or.inr hcm)
    exact List.count_eq_one_of_mem (copy_glyph_nodup src fuel dst sN dN hnd) hmem
  · intro src fuel fuel' dst sN dN hf hsucc
    exact noop src fuel' _ sN dN hf (copy_glyph_success_mem src fuel dst sN dN hsucc)

/-- Donor outline state with a composite Aacute referencing the same
component twice. -/
def twinDonor : OutlineState :=
  { glyf := [("Aacute", ⟨["A", "A"], -1, some 900⟩), ("A", ⟨[], 2, some 700⟩)],
    hmtx := [("Aacute", (600, 10)), ("A", (600, 10))] }

/-- C4 witness: the dedup theorem applied to the twin-component donor
and an empty destination. -/
theorem c4_witness :
    (skeys (copy_glyph twinDonor 5 ⟨[], []⟩ "Aacute" "mes_uni00C1").1.glyf).count
      "_ens_A" = 1 :=
  c4_copy_glyph_dedup.2.1 twinDonor 5 ⟨[], []⟩ "Aacute" "mes_uni00C1" "A"
    ⟨["A", "A"], -1, some 900⟩ (by rfl) (by rfl) (by decide) (by decide) (by rfl)

/-- C5: a successful composite copy inserts at the destination name the
source record with every component reference rewritten to the
internal-use prefix plus the component's original name, and each such
renamed component is itself present in the destination afterwards (the
source outline state is never modified: copy_glyph only returns a new
destination). -/
theorem c5_copy_glyph_component_renaming (src : OutlineState) (fuel : Nat)
    (dst dst' : OutlineState) (sN dN : String) (g : Glyph)
    (hsrc : slookup sN src.glyf = some g) (hnew : dN ∉ skeys dst.glyf)
    (hcg : copy_glyph src fuel dst sN dN = (dst', true)) :
    slookup dN dst'.glyf =
      some { g with components := g.components.map (fun c => "_ens_" ++ c) } ∧
    ∀ c ∈ g.components, ("_ens_" ++ c) ∈ skeys dst'.glyf := by
  cases fuel with
  | zero =>
    rw [show copy_glyph src 0 dst sN dN = (dst, false) from rfl] at hcg
    injection hcg with h1 h2
    exact absurd h2 (by simp)
  | succ fuel =>
    have hd : (slookup dN dst.glyf).isSome = false :=
      Bool.eq_false_iff.mpr (fun hx => hnew ((slookup_isSome_iff_mem_skeys _ _).mp hx))
    rcases hrc : runComponents (copy_glyph src fuel) dst g.components with ⟨dst1, ok⟩
    cases ok with
    | false =>
      rw [show copy_glyph src (fuel + 1) dst sN dN = (dst1, false) from by
        simp only [copy_glyph, hd, if_false, Bool.false_eq_true, hsrc, hrc]] at hcg
      injection hcg with h1 h2
      exact absurd h2 (by simp)
    | true =>
      rcases hh : slookup sN src.hmtx with _ | met
      · have hres : (copy_glyph src (fuel + 1) dst sN dN).2 = false := by
          simp only [copy_glyph, hd, if_false, Bool.false_eq_true, hsrc, hrc, hh]
        rw [hcg] at hres
        exact absurd hres (by simp)
      · have hres : copy_glyph src (fuel + 1) dst sN dN =
            ({ glyf := sset dN { g with
                 components := g.components.map (fun c => "_ens_" ++ c) } dst1.glyf,
               hmtx := sset dN met dst1.hmtx }, true) := by
          simp only [copy_glyph, hd, if_false, Bool.false_eq_true, hsrc, hrc, hh]
        rw [hres] at hcg
        injection hcg with h1 h2
        subst h1
        constructor
        · exact slookup_sset_self _ _ _
        · intro c hc
          have hr2 : (runComponents (copy_glyph src fuel) dst g.components).2 = true := by
            rw [hrc]
          have := runComponents_success_mem (copy_glyph src fuel)
            (fun dst c d hx => copy_glyph_success_mem src fuel dst c d hx)
            (fun dst c d n hn => copy_glyph_glyf_mono src fuel dst c d n hn)
            g.components dst hr2 c hc
          rw [hrc] at this
          exact (mem_skeys_sset _ _ _ _).mpr (Or.inr this)

/-- Donor outline state for the Aacute scenario: a composite with two
distinct components. -/
def aacuteDonor : OutlineState :=
  { glyf := [("Aacute", ⟨["A", "acutecomb"], -1, some 900⟩), ("A", ⟨[], 2, some 700⟩),
      ("acutecomb", ⟨[], 1, some 900⟩)],
    hmtx := [("Aacute", (600, 10)), ("A", (600, 10)), ("acutecomb", (0, 0))] }

/-- C5 witness: the component renaming theorem applied to the Aacute
donor and an empty destination. -/
theorem c5_witness :
    slookup "mes_uni00C1" (copy_glyph aacuteDonor 5 ⟨[], []⟩ "Aacute" "mes_uni00C1").1.glyf =
      some ⟨["_ens_A", "_ens_acutecomb"], -1, some 900⟩ ∧
    ("_ens_A" ∈ skeys (copy_glyph aacuteDonor 5 ⟨[], []⟩ "Aacute" "mes_uni00C1").1.glyf ∧
     "_ens_acutecomb" ∈ skeys (copy_glyph aacuteDonor 5 ⟨[], []⟩ "Aacute" "mes_uni00C1").1.glyf) := by
  have h := c5_copy_glyph_component_renaming aacuteDonor 5 ⟨[], []⟩
    (copy_glyph aacuteDonor 5 ⟨[], []⟩ "Aacute" "mes_uni00C1").1 "Aacute" "mes_uni00C1"
    ⟨["A", "acutecomb"], -1, some 900⟩ (by rfl) (by decide) (by rfl)
  exact ⟨h.1, h.2 "A" (by simp), h.2 "acutecomb" (by simp)⟩

/-! ## C7: failure containment in the transplant loop -/

/-- The lookup of one codepoint across every cmap subtable of a font,
in subtable order. -/
def cmapLookupAll (f : FontContainer) (cp : Nat) : List (Option String) :=
  f.cmapTables.map (fun st => alookup cp st.cmap)

theorem update_cmap_lookupAll_ne (f : FontContainer) {cp' cp : Nat} (g : String)
    (h : cp' ≠ cp) : cmapLookupAll (update_cmap f cp' g) cp = cmapLookupAll f cp := by
  unfold cmapLookupAll update_cmap
  simp only [List.map_map]
  apply List.map_congr_left
  intro st _
  simp only [Function.comp]
  rcases updateSubtable_cases cp' g st with hc | ⟨hc, -⟩
  · rw [hc]
  · rw [hc]
    exact alookup_aset_ne h g st.cmap

theorem withOutline_lookupAll (dst : FontContainer) (o : OutlineState) (cp : Nat) :
    cmapLookupAll (dst.withOutline o) cp = cmapLookupAll dst cp := rfl

theorem transplantTrace_length (src : OutlineState) (fuel : Nat) (pfx : String) :
    ∀ (l : List (Nat × String)) (dst : FontContainer),
      (transplantTrace src fuel pfx dst l).length = l.length := by
  intro l
  induction l with
  | nil =>
    intro dst
    rfl
  | cons e rest ih =>
    intro dst
    obtain ⟨cp, sn⟩ := e
    rcases hcg : copy_glyph src fuel dst.outline sn (glyph_name_for_codepoint cp pfx)
      with ⟨o1, ok⟩
    cases ok with
    | false =>
      simp only [transplantTrace, hcg, List.length_cons, ih]
    | true =>
      simp only [transplantTrace, hcg, List.length_cons, ih]

theorem transplantLoop_count (src : OutlineState) (fuel : Nat) (pfx : String) :
    ∀ (l : List (Nat × String)) (dst : FontContainer),
      (transplantLoop src fuel pfx dst l).2 =
        (transplantTrace src fuel pfx dst l).count true := by
  intro l
  induction l with
  | nil =>
    intro dst
    rfl
  | cons e rest ih =>
    intro dst
    obtain ⟨cp, sn⟩ := e
    rcases hcg : copy_glyph src fuel dst.outline sn (glyph_name_for_codepoint cp pfx)
      with ⟨o1, ok⟩
    cases ok with
    | false =>
      simp only [transplantLoop, transplantTrace, hcg, ih]
      rw [List.count_cons_of_ne (by decide)]
    | true =>
      rcases hrest : transplantLoop src fuel pfx
        (update_cmap (dst.withOutline o1) cp (glyph_name_for_codepoint cp pfx)) rest
        with ⟨d, c⟩
      simp only [transplantLoop, transplantTrace, hcg, hrest]
      rw [List.count_cons_self]
      have hc := ih (update_cmap (dst.withOutline o1) cp (glyph_name_for_codepoint cp pfx))
      rw [hrest] at hc
      simp only at hc ⊢
      omega

theorem transplantLoop_absent (src : OutlineState) (fuel : Nat) (pfx : String) :
    ∀ (l : List (Nat × String)) (dst : FontContainer) (cp : Nat),
      cp ∉ l.map Prod.fst →
      cmapLookupAll (transplantLoop src fuel pfx dst l).1 cp = cmapLookupAll dst cp := by
  intro l
  induction l with
  | nil =>
    intro dst cp _
    rfl
  | cons e rest ih =>
    intro dst cp habs
    obtain ⟨cp0, sn⟩ := e
    simp only [List.map_cons, List.mem_cons, not_or] at habs
    rcases hcg : copy_glyph src fuel dst.outline sn (glyph_name_for_codepoint cp0 pfx)
      with ⟨o1, ok⟩
    cases ok with
    | false =>
      simp only [transplantLoop, hcg]
      rw [ih _ cp habs.2]
      rfl
    | true =>
      rcases hrest : transplantLoop src fuel pfx
        (update_cmap (dst.withOutline o1) cp0 (glyph_name_for_codepoint cp0 pfx)) rest
        with ⟨d, c⟩
      simp only [transplantLoop, hcg, hrest]
      have hstep := ih (update_cmap (dst.withOutline o1) cp0 (glyph_name_for_codepoint cp0 pfx))
        cp habs.2
      rw [hrest] at hstep
      rw [hstep, update_cmap_lookupAll_ne _ _ (fun he => habs.1 he.symm),
        withOutline_lookupAll]

theorem transplantLoop_failed_frame (src : OutlineState) (fuel : Nat) (pfx : String) :
    ∀ (l : List (Nat × String)) (dst : FontContainer),
      (l.map Prod.fst).Nodup →
      ∀ cp sn, ((cp, sn), false) ∈ l.zip (transplantTrace src fuel pfx dst l) →
      cmapLookupAll (transplantLoop src fuel pfx dst l).1 cp = cmapLookupAll dst cp := by
  intro l
  induction l with
  | nil =>
    intro dst _ cp sn hmem
    exact absurd hmem (by simp)
  | cons e rest ih =>
    intro dst hnd cp sn hmem
    obtain ⟨cp0, sn0⟩ := e
    rw [show (List.map Prod.fst ((cp0, sn0) :: rest)) = cp0 :: rest.map Prod.fst from rfl,
      List.nodup_cons] at hnd
    rcases hcg : copy_glyph src fuel dst.outline sn0 (glyph_name_for_codepoint cp0 pfx)
      with ⟨o1, ok⟩
    cases ok with
    | false =>
      simp only [transplantTrace, hcg, List.zip_cons_cons, List.mem_cons] at hmem
      simp only [transplantLoop, hcg]
      rcases hmem with hmem | hmem
      · injection hmem with hpair _
        injection hpair with hcp _
        subst hcp
        rw [transplantLoop_absent src fuel pfx rest _ cp hnd.1]
        rfl
      · rcases List.of_mem_zip hmem with ⟨hin, -⟩
        have hne : cp ≠ cp0 := by
          intro he
          subst he
          exact hnd.1 (List.mem_map.mpr ⟨(cp, sn), hin, rfl⟩)
        rw [ih _ hnd.2 cp sn hmem]
        rfl
    | true =>
      simp only [transplantTrace, hcg, List.zip_cons_cons, List.mem_cons] at hmem
      rcases hrest : transplantLoop src fuel pfx
        (update_cmap (dst.withOutline o1) cp0 (glyph_name_for_codepoint cp0 pfx)) rest
        with ⟨d, c⟩
      simp only [transplantLoop, hcg, hrest]
      rcases hmem with hmem | hmem
      · injection hmem with hpair hflag
        exact absurd hflag.symm (by simp)
      · rcases List.of_mem_zip hmem with ⟨hin, -⟩
        have hne : cp ≠ cp0 := by
          intro he
          subst he
          exact hnd.1 (List.mem_map.mpr ⟨(cp, sn), hin, rfl⟩)
        have hstep := ih (update_cmap (dst.withOutline o1) cp0
          (glyph_name_for_codepoint cp0 pfx)) hnd.2 cp sn hmem
        rw [hrest] at hstep
        rw [hstep, update_cmap_lookupAll_ne _ _ (fun he => hne he.symm),
          withOutline_lookupAll]

/-- C7 (amended): the transplant loop processes every donor cmap entry
(the success trace has one flag per entry), the returned value counts
exactly the successfully copied codepoints, and a failed codepoint
leaves every cmap subtable's entry for it exactly as it was before the
merge.  (A failed copy may still leave partially copied glyph records
in the outline table; the claim's stronger reading is refuted by the
recorded counterexample.) -/
theorem c7_transplant_failure_containment (src dst : FontContainer) (pfx : String)
    (fuel : Nat) (m : List (Nat × String)) (f' : FontContainer) (cnt : Nat)
    (hm : get_best_cmap src = Except.ok m) (hnd : (m.map Prod.fst).Nodup)
    (ht : transplant_glyphs src dst pfx fuel = Except.ok (f', cnt)) :
    (transplantTrace src.outline fuel pfx dst m).length = m.length ∧
    cnt = (transplantTrace src.outline fuel pfx dst m).count true ∧
    (∀ cp sn, ((cp, sn), false) ∈ m.zip (transplantTrace src.outline fuel pfx dst m) →
      cmapLookupAll f' cp = cmapLookupAll dst cp) := by
  unfold transplant_glyphs at ht
  rw [hm] at ht
  simp only at ht
  injection ht with ht
  refine ⟨transplantTrace_length src.outline fuel pfx m dst, ?_, ?_⟩
  · have := transplantLoop_count src.outline fuel pfx m dst
    rw [ht] at this
    simpa using this
  · intro cp sn hmem
    have := transplantLoop_failed_frame src.outline fuel pfx m dst hnd cp sn hmem
    rw [ht] at this
    simpa using this

/-- A donor whose glyph B exists in the outline table but has no
horizontal metrics entry, so copying U+0042 fails after the outline
record was already inserted. -/
def brokenDonor : FontContainer :=
  { cmapTables := [⟨3, 10, 12, 0, [(0x41, "A"), (0x42, "B")]⟩],
    glyf := [("A", ⟨[], 2, some 720⟩), ("B", ⟨[], 2, some 720⟩)],
    hmtx := [("A", (600, 10))],
    vmtx := [],
    glyphOrder := ["A", "B"],
    os2 := sampleOS2, hhea := sampleHhea, vhea := sampleVhea }

/-- C7 counterexample: transplanting the broken donor into the sample
base copies U+0041 only (count 1) and leaves U+0042 out of every cmap
lookup, yet the outline table does contain the residue glyph
mes_uni0042 inserted before the metrics lookup failed — so a failed
codepoint can contribute an entry to the outline table, refuting the
claim as stated. -/
theorem c7_counterexample_outline_residue :
    (match transplant_glyphs brokenDonor sampleBase "mes_" 5 with
     | Except.ok p => (p.2, bestMappingAt p.1 0x42, slookup "mes_uni0042" p.1.glyf)
     | Except.error _ => (0, none, none))
    = (1, none, some ⟨[], 2, some 720⟩) := by
  rfl

/-- Result of transplanting the broken donor into the sample base. -/
def c7RunResult : FontContainer × Nat :=
  match transplant_glyphs brokenDonor sampleBase "mes_" 5 with
  | Except.ok p => p
  | Except.error _ => (sampleBase, 0)

/-- C7 witness: the containment theorem applied to the broken donor;
the failed codepoint U+0042 leaves every cmap subtable unchanged and
the returned count equals the number of successes in the trace. -/
theorem c7_witness :
    cmapLookupAll c7RunResult.1 0x42 = cmapLookupAll sampleBase 0x42 ∧
    c7RunResult.2 = (transplantTrace brokenDonor.outline 5 "mes_" sampleBase
      [(0x41, "A"), (0x42, "B")]).count true := by
  have h := c7_transplant_failure_containment brokenDonor sampleBase "mes_" 5
    [(0x41, "A"), (0x42, "B")] c7RunResult.1 c7RunResult.2 (by rfl) (by decide) (by rfl)
  exact ⟨h.2.2 0x42 "B" (by decide), h.2.1⟩
